import Mathlib

/-!
Verification of the job-partitioning and merge-planning logic of
`condor-comforter` (cmsRunCondor.py and haddaway.py), shallowly embedded
in Lean 4.  Python machine-level details are made explicit:

* Python truthiness (`filter(None, ...)` drops every falsy element, not
  only the padding value `None`) is modelled by the `PyTruthy` class;
* `itertools.izip_longest(*[iter(xs)]*n)` (the "grouper" recipe used by
  both scripts) is modelled by `grouper`: for `n ≤ 0` the argument list
  `[iter(xs)]*n` is empty and `izip_longest` yields nothing, otherwise it
  yields the consecutive chunks of size `n`, the last one padded with the
  fill value (`none`);
* fallible code returns `Except String`.
-/

/-- Python truthiness: `filter(None, seq)` keeps exactly the truthy
elements of `seq`. -/
class PyTruthy (α : Type) where
  truthy : α → Bool

/-- A non-empty Python string is truthy, the empty string is falsy. -/
instance instPyTruthyString : PyTruthy String := ⟨fun s => !s.isEmpty⟩

/-- A `(run, lumisection)` pair is a 2-tuple, hence always truthy. -/
instance instPyTruthyPair : PyTruthy (Nat × Nat) := ⟨fun _ => true⟩

/-- Helper for `chunksExact`: consume the list, emitting a chunk each time
the per-chunk budget `k` runs out; `n` is the full chunk size used to
reset the budget.  Structural recursion on the list keeps every
definition kernel-computable. -/
def chunksGo {α : Type} (n : ℕ) : ℕ → List α → List α → List (List α)
  | _, acc, [] => [acc]
  | 0, acc, x :: xs => acc :: chunksGo n (n - 1) [x] xs
  | k + 1, acc, x :: xs => chunksGo n k (acc ++ [x]) xs

/-- Split `xs` into consecutive chunks of size `n` (the last chunk may be
shorter).  This is the un-padded core of the itertools grouper recipe. -/
def chunksExact {α : Type} (n : ℕ) (xs : List α) : List (List α) :=
  match xs with
  | [] => []
  | x :: xs => chunksGo n (n - 1) [x] xs

/-- Shallow embedding of the itertools cookbook recipe
`grouper(iterable, n, fillvalue=None)` used identically in
cmsRunCondor.py and haddaway.py:
`izip_longest(*[iter(iterable)] * n)` yields the consecutive size-`n`
chunks of the iterable, the last chunk padded to length `n` with the
fill value.  For `n ≤ 0` the list `[iter(iterable)] * n` is empty, so
`izip_longest` yields nothing at all. -/
def grouper {α : Type} (xs : List α) (n : ℤ) : List (List (Option α)) :=
  if n ≤ 0 then []
  else (chunksExact n.toNat xs).map
    (fun c => c.map some ++ List.replicate (n.toNat - c.length) none)

/-- Python's `filter(None, group)` applied to one padded chunk: the `None`
padding is falsy and is dropped, and so is every falsy real element. -/
def pyFilterSome [PyTruthy α] (l : List (Option α)) : List α :=
  l.filterMap (fun o => match o with
    | none => none
    | some a => if PyTruthy.truthy a then some a else none)

/-- cmsRunCondor.group_files_by_files_per_job: run the grouper and strip
each chunk with `filter(None, ...)`. -/
def group_files_by_files_per_job [PyTruthy α] (list_of_files : List α)
    (files_per_job : ℤ) : List (List α) :=
  (grouper list_of_files files_per_job).map pyFilterSome

/-!
haddaway.py: the merge planner.  Input files are the (non-empty) path
strings collected by `haddaway`; `hadd_args`-derived argument strings are
a plain concatenation of the output and input file lists and carry no
extra information, so a Job is modelled by its name and its input and
output file lists.
-/

/-- haddaway.arrange_hadd_files: reject group sizes below 2, decrement the
group size by one when it is above 2 and would leave a single orphan file
(`len(input_files) % group_size == 1`), then either return the whole list
as one group (one intermediate job) or chunk it with the grouper,
stripping the padding of each chunk with `filter(None, ...)`.
`int(math.ceil(len * 1.0 / gs))` is the exact ceiling for the list
lengths involved, modelled as `(len + gs - 1) / gs` over ℕ. -/
def arrange_hadd_files (input_files : List String) (group_size : ℤ) :
    Except String (List (List String)) :=
  if group_size < 2 then .error "group_size must be > 1"
  else
    let gs : ℤ :=
      if input_files.length % group_size.toNat = 1 ∧ 2 < group_size
      then group_size - 1 else group_size
    let n_inter_jobs : ℕ := (input_files.length + gs.toNat - 1) / gs.toNat
    if n_inter_jobs = 1 then .ok [input_files]
    else .ok ((grouper input_files gs).map pyFilterSome)

/-- An htcondenser.Job as used by haddaway: its `args` list is
`hadd_args.split() + [output_file] + input_files`, i.e. derived from the
fields kept here. -/
structure Job where
  name : String
  input_files : List String
  output_files : List String
deriving DecidableEq

/-- haddaway.create_hadd_jobs: group the inputs, and when more than one
group results, refuse more than 255 groups, otherwise build one
intermediate job per group plus a final job over the intermediate
outputs.  The randomly-suffixed intermediate file name
`haddInter_<ind>_<rand>.root` is abstracted as `inter_name ind`.  With a
single group the final job merges that group directly (with zero groups
the source hits an IndexError on `hadd_file_groups[0]`). -/
def create_hadd_jobs (input_files : List String) (group_size : ℤ)
    (final_filename : String) (inter_name : ℕ → String) :
    Except String (List Job × Job) :=
  match arrange_hadd_files input_files group_size with
  | .error e => .error e
  | .ok hadd_file_groups =>
    match hadd_file_groups with
    | [] => .error "IndexError: list index out of range"
    | g :: gs =>
      if 1 < (g :: gs).length then
        if 255 < (g :: gs).length then
          .error "Final hadd cannot cope with that many intermediate jobs"
        else
          .ok ((g :: gs).enum.map (fun ig =>
                 { name := "interHadd_" ++ toString ig.1,
                   input_files := ig.2,
                   output_files := [inter_name ig.1] }),
               { name := "finalHadd",
                 input_files := (g :: gs).enum.map (fun ig => inter_name ig.1),
                 output_files := [final_filename] })
      else
        .ok ([], { name := "finalHadd", input_files := g,
                   output_files := [final_filename] })

/-- haddaway.haddaway, reduced to the planning steps that depend only on
the input file list: the "fewer than 2 input files" guard runs before any
merge plan is constructed; path sanitisation (abspath/strip) preserves
the number of files and the filesystem checks are environment-dependent,
so they are not modelled. -/
def haddaway_plan (input_files : List String) (size : ℤ)
    (final_filename : String) (inter_name : ℕ → String) :
    Except String (List Job × Job) :=
  if input_files.length < 2 then
    .error "Fewer than 2 input files - hadd not needed"
  else create_hadd_jobs input_files size final_filename inter_name

/-!
cmsRunCondor.py: the dataset planner.  A `DatasetFile` carries a file
name and its LumiList, viewed as the set of `(run, lumisection)` pairs it
covers (`LumiList.getLumis()`); a target LumiList is viewed through its
compact representation `compactList`, a map from run number to a list of
inclusive `[lo, hi]` lumisection ranges.  Python's `set(...)`
de-duplication is modelled by `List.dedup` (the claims only concern the
resulting sets, not CPython's internal set ordering).
-/

structure DatasetFile where
  name : String
  lumis : List (ℕ × ℕ)
  parents : List String := []
deriving DecidableEq

/-- A DatasetFile is a plain Python object, hence always truthy. -/
instance instPyTruthyDatasetFile : PyTruthy DatasetFile := ⟨fun _ => true⟩

/-- LumiList.contains(run=run, lumiSection=ls). -/
def DatasetFile.containsLumi (f : DatasetFile) (run ls : ℕ) : Bool :=
  decide ((run, ls) ∈ f.lumis)

/-- The lumisections of one inclusive compact range,
`xrange(ls_range[0], ls_range[1] + 1)`; empty when the range is inverted. -/
def ls_range_list (r : ℕ × ℕ) : List ℕ :=
  (List.range (r.2 + 1 - r.1)).map (· + r.1)

/-- cmsRunCondor.find_matching_run_ls_range: all files containing at least
one lumisection of the range (the loop extends the result for every
lumisection, and `list(set(...))` de-duplicates). -/
def find_matching_run_ls_range (raw_files : List DatasetFile) (run : ℕ)
    (ls_range : ℕ × ℕ) : List DatasetFile :=
  ((ls_range_list ls_range).flatMap
    (fun ls => raw_files.filter (fun f => f.containsLumi run ls))).dedup

/-- Inner loop of cmsRunCondor.find_matching_files over the compact
ranges of one run: raise as soon as one range matches no file at all,
otherwise accumulate the matches. -/
def find_matching_files_ranges (raw_files : List DatasetFile) (run : ℕ) :
    List (ℕ × ℕ) → Except String (List DatasetFile)
  | [] => .ok []
  | r :: rs =>
    let res := find_matching_run_ls_range raw_files run r
    if res.isEmpty then .error "No matching RAW file for this LS"
    else
      match find_matching_files_ranges raw_files run rs with
      | .error e => .error e
      | .ok rest => .ok (res ++ rest)

/-- Outer loop of cmsRunCondor.find_matching_files over
`lumi_list.compactList.iteritems()`. -/
def find_matching_files_runs (raw_files : List DatasetFile) :
    List (ℕ × List (ℕ × ℕ)) → Except String (List DatasetFile)
  | [] => .ok []
  | p :: ps =>
    match find_matching_files_ranges raw_files p.1 p.2 with
    | .error e => .error e
    | .ok l =>
      match find_matching_files_runs raw_files ps with
      | .error e => .error e
      | .ok rest => .ok (l ++ rest)

/-- cmsRunCondor.find_matching_files: accumulate over every run and every
compact range, then `list(set(matching_files))`. -/
def find_matching_files (raw_files : List DatasetFile)
    (lumi_list : List (ℕ × List (ℕ × ℕ))) : Except String (List DatasetFile) :=
  match find_matching_files_runs raw_files lumi_list with
  | .error e => .error e
  | .ok l => .ok l.dedup

/-- cmsRunCondor.group_files_by_lumis_per_job: group the keys of the
`{(run, LS): DatasetFile}` dict (modelled as an association list) with
the grouper, build each job's LumiList directly from the group's keys
(`LumiList(lumis=group_keys)`, modelled as the key list itself), and take
the de-duplicated set of the files looked up for those keys. -/
def group_files_by_lumis_per_job (list_of_lumis : List ((ℕ × ℕ) × DatasetFile))
    (lumis_per_job : ℤ) : List (List DatasetFile) × List (List (ℕ × ℕ)) :=
  let key_groups :=
    (grouper (list_of_lumis.map Prod.fst) lumis_per_job).map pyFilterSome
  (key_groups.map (fun ks =>
     (ks.filterMap (fun k => list_of_lumis.lookup k)).dedup),
   key_groups)

/-- The number of `(run, LS)` keys kept by the splitByLumis truncation of
cmsRunCondor (`args.totalUnits` is a float, modelled as ℚ): the code
computes `end = int(math.ceil(len(list_of_lumis) * totalUnits))` for a
fraction but then slices `keys()[0:end + 1]`, keeping `end + 1` keys
(capped at the dict size by the slice); for `totalUnits >= 1` it slices
`[0:int(totalUnits)]`; otherwise (negative) it keeps everything. -/
def truncCount (M : ℕ) (totalUnits : ℚ) : ℕ :=
  if 0 < totalUnits ∧ totalUnits < 1 then (⌈(M : ℚ) * totalUnits⌉ + 1).toNat
  else if 1 ≤ totalUnits then (⌊totalUnits⌋ : ℤ).toNat
  else M

/-- The splitByLumis truncation of the `{(run, LS): DatasetFile}` dict:
`{k: list_of_lumis[k] for k in list_of_lumis.keys()[0:count]}`. -/
def truncate_list_of_lumis (list_of_lumis : List ((ℕ × ℕ) × DatasetFile))
    (totalUnits : ℚ) : List ((ℕ × ℕ) × DatasetFile) :=
  list_of_lumis.take (truncCount list_of_lumis.length totalUnits)

/-- One Python dict assignment `d[k] = v` on the `{(run, LS): file}` map:
overwrite in place if the key exists, otherwise add the entry.  (CPython 2
iterates a dict in a deterministic hash-based order; the association list
keeps first-insertion order, which is equally deterministic and does not
affect any claim about identical inputs.) -/
def dictInsert (m : List ((ℕ × ℕ) × DatasetFile)) (k : ℕ × ℕ)
    (v : DatasetFile) : List ((ℕ × ℕ) × DatasetFile) :=
  if (m.lookup k).isSome then
    m.map (fun kv => if kv.1 = k then (k, v) else kv)
  else m ++ [(k, v)]

/-- The splitByLumis preparation loop of cmsRunCondor:
`for f in list_of_files: for x in f.lumi_list.getLumis(): list_of_lumis[x] = f`. -/
def build_list_of_lumis (list_of_files : List DatasetFile) :
    List ((ℕ × ℕ) × DatasetFile) :=
  list_of_files.foldl
    (fun m f => f.lumis.foldl (fun m2 x => dictInsert m2 x f) m) []

/-- The complete splitByLumis partitioning pipeline of cmsRunCondor:
build the `{(run, LS): file}` map, truncate it per `totalUnits`, and
group it into jobs of `unitsPerJob` lumisections. -/
def plan_split_by_lumis (list_of_files : List DatasetFile)
    (totalUnits : ℚ) (unitsPerJob : ℤ) :
    List (List DatasetFile) × List (List (ℕ × ℕ)) :=
  group_files_by_lumis_per_job
    (truncate_list_of_lumis (build_list_of_lumis list_of_files) totalUnits)
    unitsPerJob

/-- The splitByFiles partitioning of cmsRunCondor. -/
def plan_split_by_files (list_of_files : List DatasetFile)
    (unitsPerJob : ℤ) : List (List DatasetFile) :=
  group_files_by_files_per_job list_of_files unitsPerJob

deriving instance DecidableEq for Except

/-- Python's `str.strip()`: drop leading and trailing whitespace.  A
Python string is modelled by its character list (Lean's own
position-based `String` functions are opaque to the kernel). -/
def pyStrip (l : List Char) : List Char :=
  ((l.dropWhile Char.isWhitespace).reverse.dropWhile Char.isWhitespace).reverse

/-- Python's `str.split(sep)` for a one-character separator: split at
every occurrence, keeping empty pieces. -/
def pySplit (sep : Char) : List Char → List (List Char)
  | [] => [[]]
  | c :: cs =>
    if c = sep then [] :: pySplit sep cs
    else
      match pySplit sep cs with
      | [] => [[c]]
      | w :: ws => (c :: w) :: ws

/-- Python's `int(str)` on base-10 literals: strip whitespace, allow one
optional sign, then require at least one digit. -/
def pyInt (s : List Char) : Option ℤ :=
  let t := pyStrip s
  let signDigits : ℤ × List Char :=
    match t with
    | '-' :: rest => (-1, rest)
    | '+' :: rest => (1, rest)
    | _ => (1, t)
  if signDigits.2.isEmpty then none
  else if signDigits.2.all Char.isDigit then
    some (signDigits.1 * signDigits.2.foldl
      (fun acc c => 10 * acc + ((c.toNat - 48 : ℕ) : ℤ)) 0)
  else none

/-- Python's `range(a, b + 1)`: the integers from `a` to `b` inclusive,
empty when `b < a`. -/
def int_range (a b : ℤ) : List ℤ :=
  (List.range (b + 1 - a).toNat).map (fun i => a + (i : ℤ))

/-- One entry of the run-range string: strip it, then either a plain
number, or `start-end` via `start, end = entry.split('-')` (wrong arity
is an unpacking error, a non-numeric boundary an int() error). -/
def parse_run_range_entry (entry : List Char) : Except String (List ℤ) :=
  let e := pyStrip entry
  if e.contains '-' then
    match pySplit '-' e with
    | [a, b] =>
      match pyInt a, pyInt b with
      | some x, some y => .ok (int_range x y)
      | _, _ => .error "invalid literal for int() with base 10"
    | _ => .error "too many values to unpack"
  else
    match pyInt e with
    | some x => .ok [x]
    | none => .error "invalid literal for int() with base 10"

/-- The accumulation loop of cmsRunCondor.parse_run_range over the
comma-separated entries, stopping at the first bad entry. -/
def parse_run_range_list : List (List Char) → Except String (List ℤ)
  | [] => .ok []
  | e :: es =>
    match parse_run_range_entry e with
    | .error err => .error err
    | .ok runs =>
      match parse_run_range_list es with
      | .error err => .error err
      | .ok rest => .ok (runs ++ rest)

/-- cmsRunCondor.parse_run_range: `''` yields the empty run list, an
absent specification (`None`) yields the distinguished no-filter value
`none`, anything else is split on commas and accumulated in order. -/
def parse_run_range : Option String → Except String (Option (List ℤ))
  | some s =>
    if s = "" then .ok (some [])
    else
      match parse_run_range_list (pySplit ',' s.data) with
      | .error err => .error err
      | .ok runs => .ok (some runs)
  | none => .ok none

section ChunkLemmas

variable {α : Type}

theorem chunksGo_ne_nil (n : ℕ) :
    ∀ (xs : List α) (k : ℕ) (acc : List α), chunksGo n k acc xs ≠ [] := by
  intro xs
  induction xs with
  | nil => intro k acc; simp [chunksGo]
  | cons x xs ih =>
    intro k acc
    cases k with
    | zero => simp [chunksGo]
    | succ k => simpa [chunksGo] using ih k (acc ++ [x])

theorem chunksGo_flatten (n : ℕ) :
    ∀ (xs : List α) (k : ℕ) (acc : List α),
      (chunksGo n k acc xs).flatten = acc ++ xs := by
  intro xs
  induction xs with
  | nil => intro k acc; simp [chunksGo]
  | cons x xs ih =>
    intro k acc
    cases k with
    | zero => simp [chunksGo, ih]
    | succ k => simp [chunksGo, ih]

/-- Concatenating the chunks in order reproduces the original list. -/
theorem chunksExact_flatten (n : ℕ) (xs : List α) :
    (chunksExact n xs).flatten = xs := by
  cases xs with
  | nil => simp [chunksExact]
  | cons x xs => simp [chunksExact, chunksGo_flatten]

theorem chunksGo_dropLast_length (n : ℕ) (hn : 1 ≤ n) :
    ∀ (xs : List α) (k : ℕ) (acc : List α), acc.length + k = n →
      ∀ c ∈ (chunksGo n k acc xs).dropLast, c.length = n := by
  intro xs
  induction xs with
  | nil => intro k acc _; simp [chunksGo]
  | cons x xs ih =>
    intro k acc hacc
    cases k with
    | zero =>
      have hne : chunksGo n (n - 1) [x] xs ≠ [] := chunksGo_ne_nil n xs _ _
      intro c hc
      rw [chunksGo] at hc
      obtain ⟨y, l, hyl⟩ := List.exists_cons_of_ne_nil hne
      rw [hyl, List.dropLast_cons₂] at hc
      rcases List.mem_cons.mp hc with h | h
      · subst h; omega
      · have := ih (n - 1) [x] (by simp; omega)
        rw [hyl] at this
        exact this c h
    | succ k =>
      intro c hc
      rw [chunksGo] at hc
      exact ih k (acc ++ [x]) (by simp; omega) c hc

end ChunkLemmas

theorem chunksExact_dropLast_length {α : Type} (n : ℕ) (hn : 1 ≤ n) (xs : List α)
    (c : List α) (hc : c ∈ (chunksExact n xs).dropLast) : c.length = n := by
  cases xs with
  | nil => simp [chunksExact] at hc
  | cons x xs =>
    rw [chunksExact] at hc
    refine chunksGo_dropLast_length n hn xs (n - 1) [x] ?_ c hc
    simp
    omega

theorem chunksExact_mem_subset {α : Type} (n : ℕ) (xs : List α)
    (c : List α) (hc : c ∈ chunksExact n xs) (a : α) (ha : a ∈ c) : a ∈ xs := by
  have h : a ∈ (chunksExact n xs).flatten := List.mem_flatten.mpr ⟨c, hc, ha⟩
  rwa [chunksExact_flatten] at h

section FilterLemmas

variable {α : Type} [PyTruthy α]

theorem pyFilterSome_replicate_none (k : ℕ) :
    pyFilterSome (List.replicate k (none : Option α)) = [] := by
  induction k with
  | zero => rfl
  | succ k ih => simp [pyFilterSome, List.replicate, List.filterMap_cons]

theorem pyFilterSome_pad (c : List α) (k : ℕ)
    (hc : ∀ a ∈ c, PyTruthy.truthy a = true) :
    pyFilterSome (c.map some ++ List.replicate k (none : Option α)) = c := by
  induction c with
  | nil => simp only [List.map_nil, List.nil_append]; exact pyFilterSome_replicate_none k
  | cons a c ih =>
    have ha : PyTruthy.truthy a = true := hc a (by simp)
    have hrest : ∀ b ∈ c, PyTruthy.truthy b = true := fun b hb => hc b (by simp [hb])
    simp only [List.map_cons, List.cons_append, pyFilterSome, List.filterMap_cons, ha,
      if_pos]
    exact congrArg (a :: ·) (ih hrest)

/-- Bridge: for a positive group size and a list of truthy elements,
`group_files_by_files_per_job` (grouper + `filter(None, ...)`) is exactly
the chunking of the input into consecutive groups of that size. -/
theorem group_files_eq_chunksExact (xs : List α) (n : ℤ) (hn : 1 ≤ n)
    (ht : ∀ a ∈ xs, PyTruthy.truthy a = true) :
    group_files_by_files_per_job xs n = chunksExact n.toNat xs := by
  unfold group_files_by_files_per_job grouper
  rw [if_neg (by omega), List.map_map]
  have : ∀ c ∈ chunksExact n.toNat xs,
      (pyFilterSome ∘ fun c => c.map some ++
        List.replicate (n.toNat - c.length) (none : Option α)) c = id c := by
    intro c hc
    exact pyFilterSome_pad c _ (fun a ha => ht a (chunksExact_mem_subset _ xs c hc a ha))
  rw [List.map_congr_left this, List.map_id]

end FilterLemmas

/-- C4: for every input sequence of truthy items and every group size
G ≥ 1, the grouper pipeline of `group_files_by_files_per_job` produces
groups whose in-order concatenation reproduces the original sequence
(hence the lengths sum to L), with every group except possibly the last
of length exactly G. -/
theorem group_files_by_files_per_job_partition {α : Type} [PyTruthy α]
    (xs : List α) (n : ℤ) (hn : 1 ≤ n)
    (ht : ∀ a ∈ xs, PyTruthy.truthy a = true) :
    (group_files_by_files_per_job xs n).flatten = xs ∧
    ((group_files_by_files_per_job xs n).map List.length).sum = xs.length ∧
    ∀ c ∈ (group_files_by_files_per_job xs n).dropLast, c.length = n.toNat := by
  rw [group_files_eq_chunksExact xs n hn ht]
  refine ⟨chunksExact_flatten _ xs, ?_, ?_⟩
  · rw [← List.length_flatten, chunksExact_flatten]
  · exact fun c hc => chunksExact_dropLast_length n.toNat (by omega) xs c hc

/-- Witness for C4 at a concrete input: three non-empty file names grouped
in pairs give `[[a, b], [c]]`, whose concatenation is the input. -/
theorem group_files_by_files_per_job_partition_witness :
    (group_files_by_files_per_job ["a", "b", "c"] 2).flatten = ["a", "b", "c"] ∧
    ((group_files_by_files_per_job ["a", "b", "c"] 2).map List.length).sum = 3 ∧
    ∀ c ∈ (group_files_by_files_per_job ["a", "b", "c"] 2).dropLast,
      c.length = (2 : ℤ).toNat :=
  group_files_by_files_per_job_partition ["a", "b", "c"] 2 (by decide) (by decide)

/-- Counterexample to C4 as stated: `filter(None, ...)` also removes falsy
elements, so an input consisting of one empty (falsy) string is dropped
entirely and the concatenation of the groups does not reproduce the
original sequence. -/
theorem group_files_by_files_per_job_falsy_cex :
    group_files_by_files_per_job ([""] : List String) 1 = [[]] ∧
    (group_files_by_files_per_job ([""] : List String) 1).flatten ≠ [""] := by
  constructor
  · rfl
  · decide

/-- C5: the orphan-avoidance adjustment does not always work.  With N = 7
files and G = 3 the adjustment fires (7 mod 3 = 1 and 3 > 2), the group
size drops to 2, and the result still contains the singleton group
["f7"]: 7 mod 2 = 1 again. -/
theorem arrange_hadd_files_singleton_after_adjustment :
    arrange_hadd_files ["f1", "f2", "f3", "f4", "f5", "f6", "f7"] 3 =
      .ok [["f1", "f2"], ["f3", "f4"], ["f5", "f6"], ["f7"]] ∧
    (7 % 3 = 1 ∧ (2 : ℤ) < 3) ∧
    (["f7"] : List String).length = 1 :=
  ⟨rfl, by decide, rfl⟩

theorem flatten_map_singleton {β γ : Type} (l : List β) (f : β → γ) :
    (l.map (fun x => [f x])).flatten = l.map f := by
  induction l with
  | nil => rfl
  | cons x l ih => simp [ih]

/-- C6: once the partition yields more than one group, `create_hadd_jobs`
fails with the fan-in error exactly when the group count exceeds 255
(so exactly 256 groups fail and exactly 255 succeed); on success it
creates one intermediate job per group, each taking exactly its group as
input, and one final job whose inputs are all the intermediate outputs. -/
theorem create_hadd_jobs_fan_in (input : List String) (g : ℤ)
    (fn : String) (gen : ℕ → String) (groups : List (List String))
    (h : arrange_hadd_files input g = .ok groups) (h1 : 1 < groups.length) :
    (255 < groups.length →
      create_hadd_jobs input g fn gen =
        .error "Final hadd cannot cope with that many intermediate jobs") ∧
    (groups.length ≤ 255 →
      create_hadd_jobs input g fn gen =
        .ok (groups.enum.map (fun ig =>
               { name := "interHadd_" ++ toString ig.1,
                 input_files := ig.2, output_files := [gen ig.1] }),
             { name := "finalHadd",
               input_files := groups.enum.map (fun ig => gen ig.1),
               output_files := [fn] }) ∧
      ∀ jobs fj, create_hadd_jobs input g fn gen = .ok (jobs, fj) →
        jobs.length = groups.length ∧
        jobs.map Job.input_files = groups ∧
        fj.input_files = (jobs.map Job.output_files).flatten ∧
        fj.output_files = [fn]) := by
  cases groups with
  | nil => simp at h1
  | cons g0 gs =>
    unfold create_hadd_jobs
    rw [h]
    dsimp only
    constructor
    · intro hbig
      rw [if_pos h1, if_pos hbig]
    · intro hsmall
      rw [if_pos h1, if_neg (by omega)]
      refine ⟨rfl, ?_⟩
      intro jobs fj hok
      rw [Except.ok.injEq, Prod.mk.injEq] at hok
      obtain ⟨hjobs, hfj⟩ := hok
      subst hjobs
      subst hfj
      refine ⟨by simp, ?_, ?_, rfl⟩
      · rw [List.map_map]
        have : (Job.input_files ∘ fun ig : ℕ × List String =>
            Job.mk ("interHadd_" ++ toString ig.1) ig.2 [gen ig.1]) =
            Prod.snd := rfl
        rw [this, List.enum_map_snd]
      · rw [List.map_map]
        have : (Job.output_files ∘ fun ig : ℕ × List String =>
            Job.mk ("interHadd_" ++ toString ig.1) ig.2 [gen ig.1]) =
            (fun ig : ℕ × List String => [gen ig.1]) := rfl
        rw [this, flatten_map_singleton]

/-- Witness for C6: four files in groups of two yield two intermediate
jobs and a final job over the two intermediate outputs. -/
theorem create_hadd_jobs_fan_in_witness :
    create_hadd_jobs ["a", "b", "c", "d"] 2 "final.root"
        (fun i => "inter" ++ toString i) =
      .ok ([{ name := "interHadd_0", input_files := ["a", "b"],
              output_files := ["inter0"] },
            { name := "interHadd_1", input_files := ["c", "d"],
              output_files := ["inter1"] }],
           { name := "finalHadd", input_files := ["inter0", "inter1"],
             output_files := ["final.root"] }) :=
  ((create_hadd_jobs_fan_in ["a", "b", "c", "d"] 2 "final.root"
      (fun i => "inter" ++ toString i) [["a", "b"], ["c", "d"]]
      rfl (by decide)).2 (by decide)).1

/-- C8 (amended): only the merge planner rejects non-positive group sizes
(`arrange_hadd_files` raises for any size below 2); the dataset planner's
grouper, and with it `group_files_by_files_per_job`, silently yield an
empty grouping for size ≤ 0, because `izip_longest(*[] )` yields nothing. -/
theorem grouper_nonpositive_size (xs files : List String) (n : ℤ)
    (hn : n ≤ 0) :
    grouper xs n = [] ∧
    group_files_by_files_per_job xs n = [] ∧
    arrange_hadd_files files n = .error "group_size must be > 1" := by
  refine ⟨?_, ?_, ?_⟩
  · simp [grouper, hn]
  · simp [group_files_by_files_per_job, grouper, hn]
  · rw [arrange_hadd_files, if_pos (by omega)]

/-- Witness for C8 (amended) at size 0. -/
theorem grouper_nonpositive_size_witness :
    grouper (["a", "b", "c"] : List String) 0 = [] ∧
    group_files_by_files_per_job (["a", "b", "c"] : List String) 0 = [] ∧
    arrange_hadd_files ["a", "b"] 0 = .error "group_size must be > 1" :=
  grouper_nonpositive_size ["a", "b", "c"] ["a", "b"] 0 (by decide)

/-- Counterexample to C8 as stated: in the dataset planner, group size 0
is not an error — the grouper and `group_files_by_files_per_job` return a
normal (empty) grouping, silently discarding all three items; likewise
for a negative size. -/
theorem grouper_zero_size_cex :
    group_files_by_files_per_job (["a", "b", "c"] : List String) 0 = [] ∧
    grouper (["a", "b", "c"] : List String) (-1) = [] :=
  ⟨rfl, rfl⟩

/-- C10: haddaway rejects fewer than 2 input files before constructing any
merge plan, so a successfully constructed plan always starts from at
least 2 input files. -/
theorem haddaway_min_input_files (input : List String) (size : ℤ)
    (fn : String) (gen : ℕ → String) :
    (input.length < 2 →
      haddaway_plan input size fn gen =
        .error "Fewer than 2 input files - hadd not needed") ∧
    (∀ plan, haddaway_plan input size fn gen = .ok plan →
      2 ≤ input.length) := by
  constructor
  · intro h
    rw [haddaway_plan, if_pos h]
  · intro plan h
    by_contra hlt
    rw [haddaway_plan, if_pos (by omega)] at h
    exact Except.noConfusion h

/-- Witness for C10: a single input file is rejected. -/
theorem haddaway_min_input_files_witness :
    haddaway_plan ["only.root"] 20 "final.root" (fun i => "i" ++ toString i) =
      .error "Fewer than 2 input files - hadd not needed" :=
  (haddaway_min_input_files ["only.root"] 20 "final.root"
    (fun i => "i" ++ toString i)).1 (by decide)

theorem mem_find_matching_run_ls_range (raw_files : List DatasetFile)
    (run : ℕ) (r : ℕ × ℕ) (f : DatasetFile) :
    f ∈ find_matching_run_ls_range raw_files run r ↔
      f ∈ raw_files ∧ ∃ ls ∈ ls_range_list r, f.containsLumi run ls = true := by
  unfold find_matching_run_ls_range
  rw [List.mem_dedup, List.mem_flatMap]
  constructor
  · rintro ⟨ls, hls, hf⟩
    rw [List.mem_filter] at hf
    exact ⟨hf.1, ls, hls, hf.2⟩
  · rintro ⟨hraw, ls, hls, hcon⟩
    exact ⟨ls, hls, List.mem_filter.mpr ⟨hraw, hcon⟩⟩

theorem find_matching_run_ls_range_eq_nil (raw_files : List DatasetFile)
    (run : ℕ) (r : ℕ × ℕ) :
    find_matching_run_ls_range raw_files run r = [] ↔
      ∀ f ∈ raw_files, ∀ ls ∈ ls_range_list r, f.containsLumi run ls = false := by
  rw [List.eq_nil_iff_forall_not_mem]
  constructor
  · intro h f hf ls hls
    by_contra hcon
    exact h f (by
      rw [mem_find_matching_run_ls_range]
      exact ⟨hf, ls, hls, by simpa using hcon⟩)
  · intro h f hmem
    rw [mem_find_matching_run_ls_range] at hmem
    obtain ⟨hraw, ls, hls, hcon⟩ := hmem
    rw [h f hraw ls hls] at hcon
    exact Bool.false_ne_true hcon

theorem find_matching_files_ranges_error_iff (raw_files : List DatasetFile)
    (run : ℕ) (rs : List (ℕ × ℕ)) :
    (∃ e, find_matching_files_ranges raw_files run rs = .error e) ↔
      ∃ r ∈ rs, find_matching_run_ls_range raw_files run r = [] := by
  induction rs with
  | nil => simp [find_matching_files_ranges]
  | cons r rs ih =>
    rw [find_matching_files_ranges]
    by_cases hempty : (find_matching_run_ls_range raw_files run r).isEmpty
    · rw [if_pos hempty]
      simp only [List.isEmpty_iff] at hempty
      constructor
      · intro _; exact ⟨r, by simp, hempty⟩
      · intro _; exact ⟨_, rfl⟩
    · rw [if_neg hempty]
      simp only [List.isEmpty_iff] at hempty
      cases hrec : find_matching_files_ranges raw_files run rs with
      | error e =>
        simp only []
        constructor
        · intro _
          obtain ⟨r', hr', hnil⟩ := ih.mp ⟨e, hrec⟩
          exact ⟨r', by simp [hr'], hnil⟩
        · intro _; exact ⟨e, rfl⟩
      | ok rest =>
        simp only []
        constructor
        · rintro ⟨e, he⟩; exact absurd he (by simp)
        · rintro ⟨r', hr', hnil⟩
          rcases List.mem_cons.mp hr' with h | h
          · subst h; exact absurd hnil hempty
          · obtain ⟨e, he⟩ := ih.mpr ⟨r', h, hnil⟩
            rw [he] at hrec
            exact Except.noConfusion hrec

theorem find_matching_files_ranges_ok_mem (raw_files : List DatasetFile)
    (run : ℕ) (rs : List (ℕ × ℕ)) (l : List DatasetFile)
    (h : find_matching_files_ranges raw_files run rs = .ok l) (f : DatasetFile) :
    f ∈ l ↔ ∃ r ∈ rs, f ∈ find_matching_run_ls_range raw_files run r := by
  induction rs generalizing l with
  | nil =>
    rw [find_matching_files_ranges, Except.ok.injEq] at h
    subst h
    simp
  | cons r rs ih =>
    rw [find_matching_files_ranges] at h
    by_cases hempty : (find_matching_run_ls_range raw_files run r).isEmpty
    · rw [if_pos hempty] at h
      exact Except.noConfusion h
    · rw [if_neg hempty] at h
      cases hrec : find_matching_files_ranges raw_files run rs with
      | error e => rw [hrec] at h; exact Except.noConfusion h
      | ok rest =>
        rw [hrec, Except.ok.injEq] at h
        subst h
        rw [List.mem_append, ih rest hrec]
        constructor
        · rintro (hf | ⟨r', hr', hf⟩)
          · exact ⟨r, by simp, hf⟩
          · exact ⟨r', by simp [hr'], hf⟩
        · rintro ⟨r', hr', hf⟩
          rcases List.mem_cons.mp hr' with hh | hh
          · subst hh; exact Or.inl hf
          · exact Or.inr ⟨r', hh, hf⟩

theorem find_matching_files_runs_error_iff (raw_files : List DatasetFile)
    (ps : List (ℕ × List (ℕ × ℕ))) :
    (∃ e, find_matching_files_runs raw_files ps = .error e) ↔
      ∃ p ∈ ps, ∃ r ∈ p.2, find_matching_run_ls_range raw_files p.1 r = [] := by
  induction ps with
  | nil => simp [find_matching_files_runs]
  | cons p ps ih =>
    rw [find_matching_files_runs]
    cases hr : find_matching_files_ranges raw_files p.1 p.2 with
    | error e =>
      simp only []
      constructor
      · intro _
        obtain ⟨r, hrmem, hnil⟩ :=
          (find_matching_files_ranges_error_iff raw_files p.1 p.2).mp ⟨e, hr⟩
        exact ⟨p, by simp, r, hrmem, hnil⟩
      · intro _; exact ⟨e, rfl⟩
    | ok l =>
      cases hrec : find_matching_files_runs raw_files ps with
      | error e =>
        simp only []
        constructor
        · intro _
          obtain ⟨p', hp', hrest⟩ := ih.mp ⟨e, hrec⟩
          exact ⟨p', by simp [hp'], hrest⟩
        · intro _; exact ⟨e, rfl⟩
      | ok rest =>
        simp only []
        constructor
        · rintro ⟨e, he⟩; exact absurd he (by simp)
        · rintro ⟨p', hp', r, hrmem, hnil⟩
          rcases List.mem_cons.mp hp' with hh | hh
          · subst hh
            obtain ⟨e, he⟩ :=
              (find_matching_files_ranges_error_iff raw_files p'.1 p'.2).mpr
                ⟨r, hrmem, hnil⟩
            rw [he] at hr
            exact Except.noConfusion hr
          · obtain ⟨e, he⟩ := ih.mpr ⟨p', hh, r, hrmem, hnil⟩
            rw [he] at hrec
            exact Except.noConfusion hrec

theorem find_matching_files_runs_ok_mem (raw_files : List DatasetFile)
    (ps : List (ℕ × List (ℕ × ℕ))) (l : List DatasetFile)
    (h : find_matching_files_runs raw_files ps = .ok l) (f : DatasetFile) :
    f ∈ l ↔ ∃ p ∈ ps, ∃ r ∈ p.2, f ∈ find_matching_run_ls_range raw_files p.1 r := by
  induction ps generalizing l with
  | nil =>
    rw [find_matching_files_runs, Except.ok.injEq] at h
    subst h
    simp
  | cons p ps ih =>
    rw [find_matching_files_runs] at h
    cases hr : find_matching_files_ranges raw_files p.1 p.2 with
    | error e => rw [hr] at h; exact Except.noConfusion h
    | ok here =>
      rw [hr] at h
      cases hrec : find_matching_files_runs raw_files ps with
      | error e => rw [hrec] at h; exact Except.noConfusion h
      | ok rest =>
        rw [hrec, Except.ok.injEq] at h
        subst h
        rw [List.mem_append, ih rest hrec,
          find_matching_files_ranges_ok_mem raw_files p.1 p.2 here hr f]
        constructor
        · rintro (⟨r, hrmem, hf⟩ | ⟨p', hp', hf⟩)
          · exact ⟨p, by simp, r, hrmem, hf⟩
          · exact ⟨p', by simp [hp'], hf⟩
        · rintro ⟨p', hp', hf⟩
          rcases List.mem_cons.mp hp' with hh | hh
          · subst hh; exact Or.inl hf
          · exact Or.inr ⟨p', hh, hf⟩

/-- C1 (amended): `find_matching_files` fails with the "no coverage" error
exactly when some single compact `[lo, hi]` range of the target has no
candidate file containing any of its lumisections (per range, not per
individual `(run, lumisection)` pair), and this aborts the whole
operation; on success the result is exactly the set of candidate files
whose LumiSelection contains at least one `(run, lumisection)` pair of
the target — there is no partial result. -/
theorem find_matching_files_coverage (raw_files : List DatasetFile)
    (target : List (ℕ × List (ℕ × ℕ))) :
    ((∃ e, find_matching_files raw_files target = .error e) ↔
      ∃ p ∈ target, ∃ r ∈ p.2, ∀ f ∈ raw_files,
        ∀ ls ∈ ls_range_list r, f.containsLumi p.1 ls = false) ∧
    (∀ res, find_matching_files raw_files target = .ok res →
      ∀ f, f ∈ res ↔ f ∈ raw_files ∧ ∃ p ∈ target, ∃ r ∈ p.2,
        ∃ ls ∈ ls_range_list r, f.containsLumi p.1 ls = true) := by
  have hkey : (∃ p ∈ target, ∃ r ∈ p.2,
      find_matching_run_ls_range raw_files p.1 r = []) ↔
      (∃ p ∈ target, ∃ r ∈ p.2, ∀ f ∈ raw_files,
        ∀ ls ∈ ls_range_list r, f.containsLumi p.1 ls = false) := by
    constructor
    · rintro ⟨p, hp, r, hr, hnil⟩
      exact ⟨p, hp, r, hr, (find_matching_run_ls_range_eq_nil _ _ _).mp hnil⟩
    · rintro ⟨p, hp, r, hr, hall⟩
      exact ⟨p, hp, r, hr, (find_matching_run_ls_range_eq_nil _ _ _).mpr hall⟩
  unfold find_matching_files
  cases hrun : find_matching_files_runs raw_files target with
  | error e =>
    simp only []
    constructor
    · rw [← hkey, ← find_matching_files_runs_error_iff]
      constructor
      · intro _; exact ⟨e, hrun⟩
      · intro _; exact ⟨e, rfl⟩
    · intro res hres; exact absurd hres (by simp)
  | ok l =>
    simp only []
    constructor
    · rw [← hkey, ← find_matching_files_runs_error_iff]
      constructor
      · rintro ⟨e, he⟩; exact absurd he (by simp)
      · rintro ⟨e, he⟩
        rw [he] at hrun
        exact Except.noConfusion hrun
    · intro res hres f
      rw [Except.ok.injEq] at hres
      subst hres
      rw [List.mem_dedup, find_matching_files_runs_ok_mem raw_files target l hrun f]
      constructor
      · rintro ⟨p, hp, r, hr, hf⟩
        rw [mem_find_matching_run_ls_range] at hf
        exact ⟨hf.1, p, hp, r, hr, hf.2⟩
      · rintro ⟨hraw, p, hp, r, hr, ls, hls, hcon⟩
        exact ⟨p, hp, r, hr,
          (mem_find_matching_run_ls_range _ _ _ _).mpr ⟨hraw, ls, hls, hcon⟩⟩

/-- Witness for C1 (amended), matching the claim's own example: a target
needing the single pair `{100: [6]}` with no covering candidate at all
makes `find_matching_files` fail. -/
theorem find_matching_files_coverage_witness :
    ∃ e, find_matching_files [] [(100, [(6, 6)])] = .error e :=
  (find_matching_files_coverage [] [(100, [(6, 6)])]).1.mpr
    ⟨(100, [(6, 6)]), by simp, (6, 6), by simp, by simp⟩

/-- Counterexample to C1 as stated: the pair `(100, 6)` of the target has
zero covering candidates, yet no error is raised — the per-range check is
satisfied because the same compact range `[5, 6]` also holds the covered
pair `(100, 5)`, and the lone candidate is returned. -/
theorem find_matching_files_pair_coverage_cex :
    find_matching_files [⟨"raw1.root", [(100, 5)], []⟩] [(100, [(5, 6)])] =
      .ok [⟨"raw1.root", [(100, 5)], []⟩] ∧
    DatasetFile.containsLumi ⟨"raw1.root", [(100, 5)], []⟩ 100 6 = false := by
  constructor
  · rfl
  · rfl

/-- C2: in split-by-lumisection mode each job's LumiSelection is exactly
the corresponding group of `(run, lumisection)` keys — the consecutive
size-G chunks of the key sequence, not the coverage of any contributing
file — and each job's file set is the de-duplicated list of the files
associated with exactly those keys. -/
theorem group_files_by_lumis_per_job_exact
    (list_of_lumis : List ((ℕ × ℕ) × DatasetFile)) (n : ℤ) (hn : 1 ≤ n) :
    (group_files_by_lumis_per_job list_of_lumis n).2 =
      chunksExact n.toNat (list_of_lumis.map Prod.fst) ∧
    (group_files_by_lumis_per_job list_of_lumis n).1 =
      (chunksExact n.toNat (list_of_lumis.map Prod.fst)).map
        (fun ks => (ks.filterMap (fun k => list_of_lumis.lookup k)).dedup) ∧
    ∀ g ∈ (group_files_by_lumis_per_job list_of_lumis n).1, g.Nodup := by
  have hkeys : (grouper (list_of_lumis.map Prod.fst) n).map pyFilterSome =
      chunksExact n.toNat (list_of_lumis.map Prod.fst) :=
    group_files_eq_chunksExact (list_of_lumis.map Prod.fst) n hn
      (fun _ _ => rfl)
  refine ⟨hkeys, ?_, ?_⟩
  · unfold group_files_by_lumis_per_job
    rw [hkeys]
  · intro g hg
    unfold group_files_by_lumis_per_job at hg
    simp only [List.mem_map] at hg
    obtain ⟨ks, _, hks⟩ := hg
    rw [← hks]
    exact List.nodup_dedup _

/-- Witness for C2 on a three-lumisection dict (two distinct files, one
shared) grouped two lumisections per job. -/
theorem group_files_by_lumis_per_job_exact_witness :
    (group_files_by_lumis_per_job
        [((1, 1), ⟨"A.root", [(1, 1), (2, 3)], []⟩),
         ((1, 2), ⟨"B.root", [(1, 2)], []⟩),
         ((2, 3), ⟨"A.root", [(1, 1), (2, 3)], []⟩)] 2).2 =
      chunksExact (2 : ℤ).toNat
        ([((1, 1), (⟨"A.root", [(1, 1), (2, 3)], []⟩ : DatasetFile)),
          ((1, 2), ⟨"B.root", [(1, 2)], []⟩),
          ((2, 3), ⟨"A.root", [(1, 1), (2, 3)], []⟩)].map Prod.fst) ∧
    (group_files_by_lumis_per_job
        [((1, 1), ⟨"A.root", [(1, 1), (2, 3)], []⟩),
         ((1, 2), ⟨"B.root", [(1, 2)], []⟩),
         ((2, 3), ⟨"A.root", [(1, 1), (2, 3)], []⟩)] 2).1 =
      (chunksExact (2 : ℤ).toNat
        ([((1, 1), (⟨"A.root", [(1, 1), (2, 3)], []⟩ : DatasetFile)),
          ((1, 2), ⟨"B.root", [(1, 2)], []⟩),
          ((2, 3), ⟨"A.root", [(1, 1), (2, 3)], []⟩)].map Prod.fst)).map
        (fun ks => (ks.filterMap (fun k =>
          [((1, 1), (⟨"A.root", [(1, 1), (2, 3)], []⟩ : DatasetFile)),
           ((1, 2), ⟨"B.root", [(1, 2)], []⟩),
           ((2, 3), ⟨"A.root", [(1, 1), (2, 3)], []⟩)].lookup k)).dedup) ∧
    ∀ g ∈ (group_files_by_lumis_per_job
        [((1, 1), ⟨"A.root", [(1, 1), (2, 3)], []⟩),
         ((1, 2), ⟨"B.root", [(1, 2)], []⟩),
         ((2, 3), ⟨"A.root", [(1, 1), (2, 3)], []⟩)] 2).1, g.Nodup :=
  group_files_by_lumis_per_job_exact
    [((1, 1), ⟨"A.root", [(1, 1), (2, 3)], []⟩),
     ((1, 2), ⟨"B.root", [(1, 2)], []⟩),
     ((2, 3), ⟨"A.root", [(1, 1), (2, 3)], []⟩)] 2 (by decide)

/-- C3: the fractional branch keeps one key too many.  With M = 4
flattened keys and totalUnits = 1/2 the spec demands
ceil(0.5 * 4) = 2 keys, but the slice `[0:end + 1]` keeps 3; the
integer branch (totalUnits = 2 keeps 2 keys) and the negative branch
(keep all) behave as claimed. -/
theorem truncate_list_of_lumis_off_by_one :
    ⌈(4 : ℚ) * (1 / 2)⌉ = 2 ∧
    (truncate_list_of_lumis
      [((1, 1), ⟨"A.root", [], []⟩), ((1, 2), ⟨"A.root", [], []⟩),
       ((1, 3), ⟨"A.root", [], []⟩), ((1, 4), ⟨"A.root", [], []⟩)]
      (1 / 2)).length = 3 ∧
    (truncate_list_of_lumis
      [((1, 1), ⟨"A.root", [], []⟩), ((1, 2), ⟨"A.root", [], []⟩),
       ((1, 3), ⟨"A.root", [], []⟩), ((1, 4), ⟨"A.root", [], []⟩)]
      2).length = 2 ∧
    (truncate_list_of_lumis
      [((1, 1), ⟨"A.root", [], []⟩), ((1, 2), ⟨"A.root", [], []⟩),
       ((1, 3), ⟨"A.root", [], []⟩), ((1, 4), ⟨"A.root", [], []⟩)]
      (-1)).length = 4 := by
  have h1 : truncCount 4 (1 / 2) = 3 := by
    unfold truncCount
    rw [if_pos (by norm_num)]
    norm_num
    decide
  have h2 : truncCount 4 (2 : ℚ) = 2 := by
    unfold truncCount
    rw [if_neg (by norm_num), if_pos (by norm_num)]
    norm_num
    decide
  have h3 : truncCount 4 (-1 : ℚ) = 4 := by
    unfold truncCount
    rw [if_neg (by norm_num), if_neg (by norm_num)]
  refine ⟨by norm_num, ?_, ?_, ?_⟩
  · show (List.take (truncCount 4 (1 / 2))
      [((1, 1), (⟨"A.root", [], []⟩ : DatasetFile)), ((1, 2), ⟨"A.root", [], []⟩),
       ((1, 3), ⟨"A.root", [], []⟩), ((1, 4), ⟨"A.root", [], []⟩)]).length = 3
    rw [h1]
    decide
  · show (List.take (truncCount 4 (2 : ℚ))
      [((1, 1), (⟨"A.root", [], []⟩ : DatasetFile)), ((1, 2), ⟨"A.root", [], []⟩),
       ((1, 3), ⟨"A.root", [], []⟩), ((1, 4), ⟨"A.root", [], []⟩)]).length = 2
    rw [h2]
    decide
  · show (List.take (truncCount 4 (-1 : ℚ))
      [((1, 1), (⟨"A.root", [], []⟩ : DatasetFile)), ((1, 2), ⟨"A.root", [], []⟩),
       ((1, 3), ⟨"A.root", [], []⟩), ((1, 4), ⟨"A.root", [], []⟩)]).length = 4
    rw [h3]
    decide

/-- C9: the dataset planner is deterministic — both split modes are pure
functions of the file metadata snapshot and the filter settings, so two
runs on identical inputs yield identical job partitions (file groups and
per-job lumisection selections). -/
theorem planner_deterministic (files1 files2 : List DatasetFile)
    (tu1 tu2 : ℚ) (n1 n2 : ℤ)
    (h : files1 = files2 ∧ tu1 = tu2 ∧ n1 = n2) :
    plan_split_by_lumis files1 tu1 n1 = plan_split_by_lumis files2 tu2 n2 ∧
    plan_split_by_files files1 n1 = plan_split_by_files files2 n2 := by
  obtain ⟨h1, h2, h3⟩ := h
  subst h1
  subst h2
  subst h3
  exact ⟨rfl, rfl⟩

/-- Witness for C9 at a concrete snapshot. -/
theorem planner_deterministic_witness :
    plan_split_by_lumis [⟨"A.root", [(1, 1), (1, 2)], []⟩] (-1) 2 =
      plan_split_by_lumis [⟨"A.root", [(1, 1), (1, 2)], []⟩] (-1) 2 ∧
    plan_split_by_files [⟨"A.root", [(1, 1), (1, 2)], []⟩] 2 =
      plan_split_by_files [⟨"A.root", [(1, 1), (1, 2)], []⟩] 2 :=
  planner_deterministic [⟨"A.root", [(1, 1), (1, 2)], []⟩]
    [⟨"A.root", [(1, 1), (1, 2)], []⟩] (-1) (-1) 2 2 ⟨rfl, rfl, rfl⟩

theorem parse_run_range_list_error_iff (es : List (List Char)) :
    (∃ e, parse_run_range_list es = .error e) ↔
      ∃ entry ∈ es, ∃ e, parse_run_range_entry entry = .error e := by
  induction es with
  | nil => simp [parse_run_range_list]
  | cons e es ih =>
    rw [parse_run_range_list]
    cases he : parse_run_range_entry e with
    | error err =>
      simp only []
      constructor
      · intro _; exact ⟨e, by simp, err, he⟩
      · intro _; exact ⟨err, rfl⟩
    | ok runs =>
      cases hrec : parse_run_range_list es with
      | error err =>
        simp only []
        constructor
        · intro _
          obtain ⟨entry, hmem, herr⟩ := ih.mp ⟨err, hrec⟩
          exact ⟨entry, by simp [hmem], herr⟩
        · intro _; exact ⟨err, rfl⟩
      | ok rest =>
        simp only []
        constructor
        · rintro ⟨err, herr⟩; exact absurd herr (by simp)
        · rintro ⟨entry, hmem, err, herr⟩
          rcases List.mem_cons.mp hmem with hh | hh
          · subst hh; rw [he] at herr; exact Except.noConfusion herr
          · obtain ⟨err2, herr2⟩ := ih.mpr ⟨entry, hh, err, herr⟩
            rw [herr2] at hrec
            exact Except.noConfusion hrec

/-- C7 (amended): parse_run_range keeps the distinguished values (absent
input yields the no-filter value, `''` yields the empty list), fails with
a parse error exactly when some comma-separated entry is malformed — a
non-numeric boundary or a wrong-arity dashed entry — and returns runs in
input order without de-duplication; an inverted range, however, is not an
error: `range(start, end + 1)` is simply empty, so the entry contributes
no runs. -/
theorem parse_run_range_amended :
    parse_run_range none = .ok none ∧
    parse_run_range (some "") = .ok (some []) ∧
    (∀ s : String, s ≠ "" →
      ((∃ e, parse_run_range (some s) = .error e) ↔
        ∃ entry ∈ pySplit ',' s.data,
          ∃ e, parse_run_range_entry entry = .error e)) ∧
    (∀ a b : ℤ, b < a → int_range a b = []) ∧
    (∃ e, parse_run_range (some "abc") = .error e) ∧
    (∃ e, parse_run_range (some "1-x") = .error e) ∧
    (∃ e, parse_run_range (some "1-2-3") = .error e) ∧
    parse_run_range (some "234569-234567") = .ok (some []) ∧
    parse_run_range (some "1, 1,3-5,2") = .ok (some [1, 1, 3, 4, 5, 2]) := by
  refine ⟨rfl, rfl, ?_, ?_,
    ⟨"invalid literal for int() with base 10", by decide⟩,
    ⟨"invalid literal for int() with base 10", by decide⟩,
    ⟨"too many values to unpack", by decide⟩,
    by decide, by decide⟩
  · intro s hs
    rw [parse_run_range.eq_def]
    dsimp only
    rw [if_neg hs]
    cases hlist : parse_run_range_list (pySplit ',' s.data) with
    | error err =>
      simp only []
      constructor
      · intro _
        exact (parse_run_range_list_error_iff (pySplit ',' s.data)).mp ⟨err, hlist⟩
      · intro _; exact ⟨err, rfl⟩
    | ok runs =>
      simp only []
      constructor
      · rintro ⟨err, herr⟩; exact absurd herr (by simp)
      · intro hbad
        obtain ⟨err, herr⟩ :=
          (parse_run_range_list_error_iff (pySplit ',' s.data)).mpr hbad
        rw [herr] at hlist
        exact Except.noConfusion hlist
  · intro a b hba
    unfold int_range
    have h0 : (b + 1 - a).toNat = 0 := by omega
    rw [h0]
    rfl

/-- Witness for C7 (amended): the error characterisation applied to the
non-numeric input "abc", and an inverted range evaluating to no runs. -/
theorem parse_run_range_amended_witness :
    ((∃ e, parse_run_range (some "abc") = .error e) ↔
      ∃ entry ∈ pySplit ',' "abc".data,
        ∃ e, parse_run_range_entry entry = .error e) ∧
    int_range 5 3 = [] :=
  ⟨parse_run_range_amended.2.2.1 "abc" (by decide),
   parse_run_range_amended.2.2.2.1 5 3 (by decide)⟩

/-- Counterexample to C7 as stated: an inverted range (end below start)
does not fail with a parse error — it parses successfully to an empty run
list. -/
theorem parse_run_range_inverted_cex :
    parse_run_range (some "234569-234567") = .ok (some []) := by decide
